import Mathlib

/-!
Verification of the Fibre local-endpoint / codec subsystem
(`cpp/include/fibre/local_function.hpp`) and the D-Bus value marshalling
helpers (`cpp/include/fibre/dbus.hpp`), as a shallow embedding in Lean 4.

Values that are heterogeneous tuples in the C++ template code are embedded as
homogeneous lists (with a sum type where two provenance classes must be kept
apart); machine integers are embedded as `Nat` with explicit truncation where
the C++ type would truncate.
-/

namespace Fibre

/-- Argument mode tags of `local_function.hpp` (`arg_mode_input`,
`arg_mode_output`).  A third tag `arg_mode_return_value` is declared in the
source but never occurs in a metadata `TArgModes` tuple: `with_item` only ever
appends `arg_mode_input` or `arg_mode_output`, and `merged_io_tuple_type` has
no specialization for it. -/
inductive ArgMode where
  | input : ArgMode
  | output : ArgMode
deriving DecidableEq

/-- Number of `arg_mode_input` tags in a mode list. -/
def countInputs : List ArgMode → Nat
  | [] => 0
  | ArgMode.input :: ms => countInputs ms + 1
  | ArgMode.output :: ms => countInputs ms

/-- Number of `arg_mode_output` tags in a mode list. -/
def countOutputs : List ArgMode → Nat
  | [] => 0
  | ArgMode.input :: ms => countOutputs ms
  | ArgMode.output :: ms => countOutputs ms + 1

/-- Embeds `merge_to_io_tuple` (local_function.hpp lines 268-300): walks the arg-mode
tuple; for `arg_mode_input` it takes the head of the input tuple, for
`arg_mode_output` the head of the output-reference tuple, and recurses on the
rest.  Inputs and output references have distinct C++ types, embedded here as
the two sides of a sum.  The cases where the required source tuple is empty
are unreachable in the source (no template specialization matches; the
overload set requires a matching head); they return `[]` here to keep the
function total. -/
def merge_to_io_tuple {α β : Type} : List α → List β → List ArgMode → List (α ⊕ β)
  | _, _, [] => []
  | ins, outs, ArgMode.input :: ms =>
    match ins with
    | [] => []
    | i :: ins2 => Sum.inl i :: merge_to_io_tuple ins2 outs ms
  | ins, outs, ArgMode.output :: ms =>
    match outs with
    | [] => []
    | o :: outs2 => Sum.inr o :: merge_to_io_tuple ins outs2 ms

/-- Modelled from the spec: `write_le<uint32_t>` (from the Fibre stream
utilities, which are not under src/) writes a 32-bit value to a 4-byte buffer
little-endian (spec section 4.1: integers are "encoded little-endian, fixed
width").  Each byte is the value shifted and truncated, so the buffer holds
the value modulo 2^32. -/
def write_le32 (v : Nat) : List Nat :=
  [v % 256, v / 256 % 256, v / 65536 % 256, v / 16777216 % 256]

/-- Modelled from the spec: the little-endian read of a 4-byte buffer
(`read_le<uint32_t>`, also outside src/), used here only to state that the
written length prefix denotes the intended length. -/
def read_le32 : List Nat → Nat
  | [a, b, c, d] => a + 256 * (b + 256 * (c + 256 * d))
  | _ => 0

/-- Modelled from the spec: the opaque external output sink (spec section 6:
"accept a buffer and report how many bytes were actually consumed").
`caps` lists, per successive `process_bytes` call, the maximal byte count the
sink accepts; once `caps` is exhausted the sink accepts everything.  `written`
accumulates every byte the sink has accepted, in order.  The status returned
by the real sink is `OK` in this model; a short write is visible through the
returned processed-byte count. -/
structure Sink where
  caps : List Nat
  written : List Nat
deriving DecidableEq

/-- One `StreamSink::process_bytes(buffer, length, &processed_bytes)` call:
returns the updated sink and the number of processed bytes. -/
def Sink.process_bytes (s : Sink) (buf : List Nat) : Sink × Nat :=
  match s.caps with
  | [] => (Sink.mk [] (s.written ++ buf), buf.length)
  | c :: cs => (Sink.mk cs (s.written ++ List.take (min c buf.length) buf), min c buf.length)

/-- Embeds `Encoder<uint32_t>::serialize` (local_function.hpp lines 73-81): writes
the 4 little-endian bytes of the value and ignores both the status and the
processed-byte count (it passes `nullptr` for `processed_bytes`). -/
def EncoderU32.serialize (output : Sink) (value : Nat) : Sink :=
  (output.process_bytes (write_le32 value)).1

/-- Embeds `Encoder<const char *, size_t>::serialize` (local_function.hpp lines
83-111).  `str` models the `(const char* str, size_t length)` pair: `none` is
a null pointer, `some payload` a non-null string whose `length` is
`payload.length`.  The code writes the 4-byte little-endian prefix
`uint32_t i = str ? length : 0`; if the status is not OK or fewer than 4
bytes were processed it returns at once.  Otherwise, for a non-null `str` it
writes the payload; a short write of the payload is only logged, not treated
as an abort.  For a null `str` it only logs. -/
def EncoderString.serialize (output : Sink) (str : Option (List Nat)) : Sink :=
  let i : Nat := match str with
    | some payload => payload.length
    | none => 0
  let buf := write_le32 i
  let r := output.process_bytes buf
  if r.2 ≠ buf.length then
    r.1
  else
    match str with
    | some payload => (r.1.process_bytes payload).1
    | none => r.1

/-- A value handed to the encoder chain: either a `uint32_t` or a
`(const char*, size_t)` string. -/
inductive EncVal where
  | u32 : Nat → EncVal
  | str : Option (List Nat) → EncVal

/-- Dispatch of one chain element to its encoder. -/
def EncoderChain.serializeOne (output : Sink) : EncVal → Sink
  | EncVal.u32 v => EncoderU32.serialize output v
  | EncVal.str s => EncoderString.serialize output s

/-- Embeds `EncoderChain<TEncoder, TEncoders...>::serialize` (local_function.hpp
lines 113-133): serializes the head value, then unconditionally serializes
the remaining values (the per-element `serialize` returns `void`, so no
error can propagate to the chain). -/
def EncoderChain.serialize (output : Sink) (values : List EncVal) : Sink :=
  match values with
  | [] => output
  | v :: vs => EncoderChain.serialize (EncoderChain.serializeOne output v) vs

/-- Left-injection projection, used to state that merging preserves the
relative order of the decoded inputs. -/
def sumLeft? {α β : Type} : α ⊕ β → Option α
  | Sum.inl a => some a
  | Sum.inr _ => none

/-- Right-injection projection, used to state that merging preserves the
relative order of the output storage references. -/
def sumRight? {α β : Type} : α ⊕ β → Option β
  | Sum.inl _ => none
  | Sum.inr b => some b

/-- One entry of a metadata input tuple (`InputMetadata`): the declared
argument name and the decoder's codec name (`Decoder<T>::name`,
e.g. "uint32"). -/
structure InputMeta where
  name : String
  codec : String
deriving DecidableEq

/-- The part of `StaticFunctionMetadata` that the JSON assembler reads: the
function name and the ordered `Input` slots.  `sstring` values are embedded
as `String`; `sstring` concatenation (`operator+`) is string append. -/
structure FunctionMetadata where
  function_name : String
  inputs : List InputMeta
deriving DecidableEq

/-- The separator `make_sstring(",")` of `join_sstring`. -/
def commaSep : String := ","

/-- Embeds `FunctionJSONAssembler::get_input_json<I>` (local_function.hpp lines
148-158): the snippet for one input slot. -/
def get_input_json (m : InputMeta) : String :=
  "\x7b\"name\":\"" ++ m.name ++ "\",\"codec\":\"" ++ m.codec ++ "\"\x7d"

/-- Embeds `FunctionJSONAssembler::get_as_json` (local_function.hpp lines 178-185):
the full descriptor.  `get_all_inputs_json` joins the per-input snippets with
`join_sstring(make_sstring(","), ...)`, i.e. a comma-separated
concatenation. -/
def get_as_json (md : FunctionMetadata) : String :=
  "\x7b\"name\":\"" ++ md.function_name ++ "\",\"in\":[" ++
    String.intercalate commaSep (md.inputs.map get_input_json) ++ "]\x7d"

/-- Embeds `LocalFunctionEndpoint::get_hash` (local_function.hpp lines 669-672):
a stub marked `// TODO: implement` that returns the constant 0 for every
endpoint, whatever its metadata. -/
def get_hash (_md : FunctionMetadata) : Nat := 0

/-- The observable result of `LocalFunctionEndpoint::decoder_finished`
(local_function.hpp lines 645-667): the argument tuple handed to the native
callable, and the value tuple handed to `TMetadata::TOutputEncoders::serialize`. -/
structure CallResult (α β γ : Type) where
  in_and_out_refs : List (α ⊕ β)
  response : List (β ⊕ γ)

/-- Embeds `LocalFunctionEndpoint::decoder_finished` (local_function.hpp lines
645-667), at the level of value tuples.  `in_vals` are the decoded inputs
(`stream_chain::get_inputs`), `out_arg_refs` the freshly allocated output
argument storage (`impl_out_arg_refs_t`, the outputs excluding those that
come back as return values), and `arg_modes` is `impl_arg_modes_t`, the
leading `NImplArgs` arg-mode tags.  The native callable is embedded as
`func`, whose observable effect is the pair (final values of the output
arguments, which the C++ callable writes through the merged references;
returned values `out_ret_vals`).  The code then serializes
`std::tuple_cat(out_arg_vals, out_ret_vals)`: the explicit output values
first, then the return values. -/
def decoder_finished {α β γ : Type} (func : List (α ⊕ β) → List β × List γ)
    (arg_modes : List ArgMode) (in_vals : List α) (out_arg_refs : List β) :
    CallResult α β γ :=
  let in_and_out_refs := merge_to_io_tuple in_vals out_arg_refs arg_modes
  let out := func in_and_out_refs
  CallResult.mk in_and_out_refs (out.1.map Sum.inl ++ out.2.map Sum.inr)

/-- Modelled from the spec: the per-call connection machinery around one
endpoint (`IncomingConnectionDecoder` and the connection layer are not under
src/).  Spec section 4.2: the decoder chain "signals completion only once
every element has been fully decoded"; section 4.6: `decoder_finished` /
`on_inputs_complete` "is the only point where the native callable executes"
(matching `LocalFunctionEndpoint`, where only `decoder_finished` applies
`func_`, while `open_connection` merely installs the stream); section 5:
teardown discards the in-flight contexts, and `DecodeFailed` is terminal.
`remaining` is the decode cursor: bytes of the expected input sequence not
yet consumed. -/
structure CallCtx where
  remaining : Nat
  failed : Bool
  discarded : Bool
  invoked : Bool
deriving DecidableEq

/-- Events a call context can see: bytes arriving from the transport, a
decode error, or teardown of the owning connection. -/
inductive CallEvent where
  | bytesArrive : Nat → CallEvent
  | decodeError : CallEvent
  | teardown : CallEvent

/-- Modelled from the spec: one scheduling turn of the call life-cycle.  A
failed or discarded context takes no further decode step; arriving bytes
advance the cursor, and when the cursor reaches 0 the machinery calls
`decoder_finished`, which invokes the native callable. -/
def CallCtx.step (c : CallCtx) (e : CallEvent) : CallCtx :=
  if c.failed || c.discarded then
    c
  else
    match e with
    | CallEvent.bytesArrive n =>
      if c.remaining - n = 0 then
        CallCtx.mk 0 c.failed c.discarded true
      else
        CallCtx.mk (c.remaining - n) c.failed c.discarded c.invoked
    | CallEvent.decodeError => CallCtx.mk c.remaining true c.discarded c.invoked
    | CallEvent.teardown => CallCtx.mk c.remaining c.failed true c.invoked

/-- Runs a sequence of events against a call context. -/
def CallCtx.run (c : CallCtx) : List CallEvent → CallCtx
  | [] => c
  | e :: es => (c.step e).run es

/-- A freshly opened call context expecting `r` bytes of input. -/
def initCtx (r : Nat) : CallCtx :=
  CallCtx.mk r false false false

end Fibre

namespace DBus

/-- Embeds `DBusTypeTraits<bool>::push` (dbus.hpp lines 313-316): the 32-bit
unsigned pattern appended to the message for a boolean value. -/
def boolPush (val : Bool) : Nat :=
  if val then 1 else 0

/-- Embeds `DBusTypeTraits<bool>::pop` (dbus.hpp lines 318-331): reads the 32-bit
unsigned pattern `val_as_int`; 0 yields `false`, 1 yields `true`, anything
else prints "Invalid boolean value" and returns -1 without producing a
boolean (embedded as `none`). -/
def boolPop (val_as_int : Nat) : Option Bool :=
  if val_as_int = 0 then
    some false
  else if val_as_int = 1 then
    some true
  else
    none

/-- One argument present in a D-Bus message: its type id as reported by
`dbus_message_iter_get_arg_type` and its raw value.  A real message argument
never has type id `DBUS_TYPE_INVALID` (0); 0 is what the iterator reports
once past the last argument. -/
structure MsgArg where
  typeId : Nat
  value : Nat

/-- One expected argument of `unpack_message<T, Ts...>`: the expected type id
`DBusTypeTraits<T>::type_id` and whether `DBusTypeTraits<T>::pop` succeeds on
a given raw value (e.g. for `bool` it succeeds exactly on 0 and 1). -/
structure ExpectedArg where
  typeId : Nat
  popOk : Nat → Bool

/-- Embeds `dbus_message_iter_get_arg_type`: the type id of the iterator's current
argument, or `DBUS_TYPE_INVALID` (0) past the end. -/
def argTypeId : List MsgArg → Nat
  | [] => 0
  | a :: _ => a.typeId

/-- The raw value under the iterator (only read after the type check). -/
def argValue : List MsgArg → Nat
  | [] => 0
  | a :: _ => a.value

/-- Embeds `unpack_message` (dbus.hpp lines 76-100), instrumented with the number of
`pop` calls attempted.  The base overload returns -1 ("Too many arguments")
when the iterator is not at `DBUS_TYPE_INVALID`, else 0.  The recursive
overload returns -1 on an argument type mismatch (without attempting the
pop), returns -1 when the pop fails, and otherwise advances the iterator and
recurses. -/
def unpack_message_aux : List ExpectedArg → List MsgArg → Int × Nat
  | [], msg => (if argTypeId msg ≠ 0 then -1 else 0, 0)
  | e :: es, msg =>
    if argTypeId msg ≠ e.typeId then
      (-1, 0)
    else if e.popOk (argValue msg) = false then
      (-1, 1)
    else
      let r := unpack_message_aux es msg.tail
      (r.1, r.2 + 1)

/-- Embeds `unpack_message` itself: the returned status alone. -/
def unpack_message (es : List ExpectedArg) (msg : List MsgArg) : Int :=
  (unpack_message_aux es msg).1

end DBus

namespace Fibre

/-- Key lemma on `merge_to_io_tuple`: with as many inputs as `input` tags and
as many outputs as `output` tags, the merged list has the length of the tag
list, its i-th element is the next unconsumed input (resp. output) when the
i-th tag is `input` (resp. `output`) — the consumption index being the number
of like tags before position i — and projecting the merged list back onto
either class returns that class's source list unchanged. -/
lemma merge_spec {α β : Type} :
    ∀ (ms : List ArgMode) (ins : List α) (outs : List β),
      ins.length = countInputs ms → outs.length = countOutputs ms →
      (merge_to_io_tuple ins outs ms).length = ms.length
      ∧ (∀ i, i < ms.length →
          (ms[i]? = some ArgMode.input →
            ∃ v, ins[countInputs (List.take i ms)]? = some v ∧
              (merge_to_io_tuple ins outs ms)[i]? = some (Sum.inl v))
          ∧ (ms[i]? = some ArgMode.output →
            ∃ w, outs[countOutputs (List.take i ms)]? = some w ∧
              (merge_to_io_tuple ins outs ms)[i]? = some (Sum.inr w)))
      ∧ (merge_to_io_tuple ins outs ms).filterMap sumLeft? = ins
      ∧ (merge_to_io_tuple ins outs ms).filterMap sumRight? = outs := by
  intro ms
  induction ms with
  | nil =>
    intro ins outs hin hout
    have hins : ins = [] := List.eq_nil_of_length_eq_zero hin
    have houts : outs = [] := List.eq_nil_of_length_eq_zero hout
    subst hins
    subst houts
    refine ⟨rfl, ?_, rfl, rfl⟩
    intro i hi
    exact absurd hi (by simp)
  | cons m ms ih =>
    intro ins outs hin hout
    cases m with
    | input =>
      cases ins with
      | nil => simp [countInputs] at hin
      | cons a ins =>
        have hin2 : ins.length = countInputs ms := by
          simpa [countInputs] using hin
        have hout2 : outs.length = countOutputs ms := by
          simpa [countOutputs] using hout
        obtain ⟨hlen, hidx, hl, hr⟩ := ih ins outs hin2 hout2
        refine ⟨?_, ?_, ?_, ?_⟩
        · simpa [merge_to_io_tuple] using hlen
        · intro i hi
          cases i with
          | zero =>
            refine ⟨fun _ => ⟨a, by simp [countInputs], by simp [merge_to_io_tuple]⟩, fun h => ?_⟩
            simp at h
          | succ j =>
            have hj : j < ms.length := by simpa using hi
            obtain ⟨h1, h2⟩ := hidx j hj
            constructor
            · intro h
              obtain ⟨v, hv1, hv2⟩ := h1 (by simpa using h)
              refine ⟨v, ?_, ?_⟩
              · simpa [countInputs] using hv1
              · simpa [merge_to_io_tuple] using hv2
            · intro h
              obtain ⟨w, hw1, hw2⟩ := h2 (by simpa using h)
              refine ⟨w, ?_, ?_⟩
              · simpa [countOutputs] using hw1
              · simpa [merge_to_io_tuple] using hw2
        · simp [merge_to_io_tuple, sumLeft?, hl]
        · simp [merge_to_io_tuple, sumRight?, hr]
    | output =>
      cases outs with
      | nil => simp [countOutputs] at hout
      | cons b outs =>
        have hin2 : ins.length = countInputs ms := by
          simpa [countInputs] using hin
        have hout2 : outs.length = countOutputs ms := by
          simpa [countOutputs] using hout
        obtain ⟨hlen, hidx, hl, hr⟩ := ih ins outs hin2 hout2
        refine ⟨?_, ?_, ?_, ?_⟩
        · simpa [merge_to_io_tuple] using hlen
        · intro i hi
          cases i with
          | zero =>
            refine ⟨fun h => ?_, fun _ => ⟨b, by simp [countOutputs], by simp [merge_to_io_tuple]⟩⟩
            simp at h
          | succ j =>
            have hj : j < ms.length := by simpa using hi
            obtain ⟨h1, h2⟩ := hidx j hj
            constructor
            · intro h
              obtain ⟨v, hv1, hv2⟩ := h1 (by simpa using h)
              refine ⟨v, ?_, ?_⟩
              · simpa [countInputs] using hv1
              · simpa [merge_to_io_tuple] using hv2
            · intro h
              obtain ⟨w, hw1, hw2⟩ := h2 (by simpa using h)
              refine ⟨w, ?_, ?_⟩
              · simpa [countOutputs] using hw1
              · simpa [merge_to_io_tuple] using hw2
        · simp [merge_to_io_tuple, sumLeft?, hl]
        · simp [merge_to_io_tuple, sumRight?, hr]

/-- Claim C1: for any mode-tag sequence over input/output with k input tags
and N-k output tags, merging k decoded input values with N-k output storage
references produces a length-N argument tuple whose i-th element is the next
unconsumed input value when the i-th tag is input and the next unconsumed
output reference when the i-th tag is output, consuming each source list
strictly in order exactly once and preserving relative order within each
class. -/
theorem merge_to_io_tuple_correct {α β : Type} (ms : List ArgMode)
    (ins : List α) (outs : List β)
    (hin : ins.length = countInputs ms) (hout : outs.length = countOutputs ms) :
    (merge_to_io_tuple ins outs ms).length = ms.length
    ∧ (∀ i, i < ms.length →
        (ms[i]? = some ArgMode.input →
          ∃ v, ins[countInputs (List.take i ms)]? = some v ∧
            (merge_to_io_tuple ins outs ms)[i]? = some (Sum.inl v))
        ∧ (ms[i]? = some ArgMode.output →
          ∃ w, outs[countOutputs (List.take i ms)]? = some w ∧
            (merge_to_io_tuple ins outs ms)[i]? = some (Sum.inr w)))
    ∧ (merge_to_io_tuple ins outs ms).filterMap sumLeft? = ins
    ∧ (merge_to_io_tuple ins outs ms).filterMap sumRight? = outs :=
  merge_spec ms ins outs hin hout

/-- Witness for claim C1 at tags [input, output, input], inputs [10, 20]
and outputs [30]: the hypotheses hold and the merged tuple is
[inl 10, inr 30, inl 20]. -/
theorem merge_to_io_tuple_correct_witness :
    ([10, 20] : List Nat).length = countInputs [ArgMode.input, ArgMode.output, ArgMode.input]
    ∧ ([30] : List Nat).length = countOutputs [ArgMode.input, ArgMode.output, ArgMode.input]
    ∧ (merge_to_io_tuple ([10, 20] : List Nat) ([30] : List Nat)
        [ArgMode.input, ArgMode.output, ArgMode.input]).length = 3 :=
  ⟨by decide, by decide,
    (merge_to_io_tuple_correct [ArgMode.input, ArgMode.output, ArgMode.input]
      ([10, 20] : List Nat) ([30] : List Nat) (by decide) (by decide)).1⟩

/-- Claim C2 counterexample: in a two-element chain of string encoders where
the sink accepts only 2 of the first element's 4 prefix bytes (a short
write), the chain nevertheless continues: the second element is fully
serialized, so 5 further bytes ([1, 0, 0, 0, 9]) are written after the short
write.  The claim that a short write aborts all subsequent elements and that
no further bytes are written for that call is therefore false. -/
theorem encoder_chain_short_write_not_aborting :
    ((Sink.mk [2] []).process_bytes (write_le32 3)).2 = 2
    ∧ (EncoderChain.serialize (Sink.mk [2] [])
        [EncVal.str (some [7, 7, 7]), EncVal.str (some [9])]).written
      = [3, 0, 1, 0, 0, 0, 9] := by
  constructor
  · decide
  · decide

/-- Claim C2 (amended): a short write of an element's 4-byte length prefix
aborts the remaining serialization of that element only — its payload is
never written — while the encoder chain unconditionally continues with the
subsequent elements (the per-element serializers return void, so no error
propagates to the chain). -/
theorem encoder_short_write_aborts_element_only (output : Sink)
    (payload : List Nat) (vs : List EncVal)
    (h : (output.process_bytes (write_le32 payload.length)).2 ≠ 4) :
    EncoderString.serialize output (some payload)
      = (output.process_bytes (write_le32 payload.length)).1
    ∧ EncoderChain.serialize output (EncVal.str (some payload) :: vs)
      = EncoderChain.serialize (EncoderString.serialize output (some payload)) vs := by
  constructor
  · have hbuf : (write_le32 payload.length).length = 4 := rfl
    simp only [EncoderString.serialize, hbuf]
    rw [if_pos h]
  · rfl

/-- Witness for the amended claim C2: a sink that accepts only 1 byte per
call short-writes the prefix of the 1-byte string [5], and the encoder then
returns with only that truncated prefix written. -/
theorem encoder_short_write_aborts_element_only_witness :
    ((Sink.mk [1] []).process_bytes (write_le32 ([5] : List Nat).length)).2 ≠ 4
    ∧ EncoderString.serialize (Sink.mk [1] []) (some [5])
      = ((Sink.mk [1] []).process_bytes (write_le32 ([5] : List Nat).length)).1 :=
  ⟨by decide,
    (encoder_short_write_aborts_element_only (Sink.mk [1] []) [5] [] (by decide)).1⟩

/-- The 4-byte little-endian prefix written for a length below 2^32 denotes
exactly that length. -/
lemma read_write_le32 (n : Nat) (h : n < 4294967296) :
    read_le32 (write_le32 n) = n := by
  simp only [read_le32, write_le32]
  omega

/-- Claim C5: with a sink that accepts every write in full, encoding a byte
sequence of length L (L below 2^32, so that it fits the 4-byte prefix)
writes exactly 4 + L bytes — the 4-byte little-endian length prefix denoting
L, followed by the L raw payload bytes — and encoding a null value writes the
4-byte zero prefix and no payload bytes. -/
theorem string_encoding_format (w0 payload : List Nat)
    (h : payload.length < 4294967296) :
    (EncoderString.serialize (Sink.mk [] w0) (some payload)).written
      = w0 ++ (write_le32 payload.length ++ payload)
    ∧ (EncoderString.serialize (Sink.mk [] w0) (some payload)).written.length
      = w0.length + (4 + payload.length)
    ∧ read_le32 (write_le32 payload.length) = payload.length
    ∧ (EncoderString.serialize (Sink.mk [] w0) none).written = w0 ++ [0, 0, 0, 0] := by
  refine ⟨?_, ?_, read_write_le32 payload.length h, ?_⟩
  · simp [EncoderString.serialize, Sink.process_bytes, write_le32]
  · simp [EncoderString.serialize, Sink.process_bytes, write_le32]
    omega
  · simp [EncoderString.serialize, Sink.process_bytes, write_le32]

/-- Witness for claim C5 at the payload [7, 7, 7]: 4 + 3 = 7 bytes are
written, the prefix [3, 0, 0, 0] followed by the payload. -/
theorem string_encoding_format_witness :
    ([7, 7, 7] : List Nat).length < 4294967296
    ∧ (EncoderString.serialize (Sink.mk [] []) (some [7, 7, 7])).written
      = [] ++ (write_le32 ([7, 7, 7] : List Nat).length ++ [7, 7, 7]) :=
  ⟨by decide, (string_encoding_format [] [7, 7, 7] (by decide)).1⟩

/-- If a single step turns the invoked flag on, the stepped context has
decoded the entire input (`remaining = 0`) and is neither failed nor
discarded: the machinery only calls `decoder_finished` on a live context
whose decoder chain has completed. -/
lemma step_sets_invoked (c : CallCtx) (e : CallEvent)
    (hc : c.invoked = false) (h : (c.step e).invoked = true) :
    (c.step e).remaining = 0 ∧ (c.step e).failed = false
    ∧ (c.step e).discarded = false ∧ (c.step e).invoked = true := by
  rcases c with ⟨rem, f, d, inv⟩
  simp only at hc
  subst hc
  cases f <;> cases d <;> cases e <;> simp_all [CallCtx.step]
  by_cases hr : rem - ‹Nat› = 0 <;> simp_all

/-- If running a trace of events leaves the invoked flag on while it started
off, some prefix of the trace ends in a state where the whole input is
decoded, the context is live, and the callable has just been invoked. -/
lemma run_invoked_origin :
    ∀ (evs : List CallEvent) (c : CallCtx), c.invoked = false →
      (c.run evs).invoked = true →
      ∃ p q, evs = p ++ q
        ∧ (c.run p).remaining = 0
        ∧ (c.run p).failed = false
        ∧ (c.run p).discarded = false
        ∧ (c.run p).invoked = true := by
  intro evs
  induction evs with
  | nil =>
    intro c hc h
    rw [CallCtx.run] at h
    rw [h] at hc
    exact absurd hc (by simp)
  | cons e es ih =>
    intro c hc h
    by_cases hinv : (c.step e).invoked = true
    · obtain ⟨h1, h2, h3, h4⟩ := step_sets_invoked c e hc hinv
      exact ⟨[e], es, rfl, h1, h2, h3, h4⟩
    · rw [Bool.not_eq_true] at hinv
      obtain ⟨p, q, hpq, g1, g2, g3, g4⟩ := ih (c.step e) hinv h
      exact ⟨e :: p, q, by rw [hpq]; rfl, g1, g2, g3, g4⟩

/-- Claim C7: the native callable executes only inside the decoder-finished
step, which is reached only once every input element has been fully decoded:
whenever a run of transport events leaves the callable invoked, some prefix
of the run reached a live (not failed, not discarded) state with the whole
input decoded.  Contrapositively, if decoding fails or the call context is
discarded before all inputs are decoded, the native callable is never
invoked. -/
theorem native_call_only_after_full_decode (r : Nat) (evs : List CallEvent)
    (h : ((initCtx r).run evs).invoked = true) :
    ∃ p q, evs = p ++ q
      ∧ ((initCtx r).run p).remaining = 0
      ∧ ((initCtx r).run p).failed = false
      ∧ ((initCtx r).run p).discarded = false
      ∧ ((initCtx r).run p).invoked = true :=
  run_invoked_origin evs (initCtx r) rfl h

/-- Witness for claim C7: expecting 4 input bytes that arrive over two turns,
the callable ends up invoked, so the theorem yields a completing prefix. -/
theorem native_call_only_after_full_decode_witness :
    ((initCtx 4).run [CallEvent.bytesArrive 2, CallEvent.bytesArrive 2]).invoked = true
    ∧ ∃ p q, ([CallEvent.bytesArrive 2, CallEvent.bytesArrive 2] : List CallEvent) = p ++ q
      ∧ ((initCtx 4).run p).remaining = 0
      ∧ ((initCtx 4).run p).failed = false
      ∧ ((initCtx 4).run p).discarded = false
      ∧ ((initCtx 4).run p).invoked = true :=
  ⟨rfl, native_call_only_after_full_decode 4
    [CallEvent.bytesArrive 2, CallEvent.bytesArrive 2] rfl⟩

/-- Every element of a merged argument tuple originates in the decoded-input
list or in the output-storage list. -/
lemma merge_mem {α β : Type} :
    ∀ (ms : List ArgMode) (ins : List α) (outs : List β) (x : α ⊕ β),
      x ∈ merge_to_io_tuple ins outs ms →
      (∃ v ∈ ins, x = Sum.inl v) ∨ (∃ w ∈ outs, x = Sum.inr w) := by
  intro ms
  induction ms with
  | nil =>
    intro ins outs x hx
    simp [merge_to_io_tuple] at hx
  | cons m ms ih =>
    intro ins outs x hx
    cases m with
    | input =>
      cases ins with
      | nil => simp [merge_to_io_tuple] at hx
      | cons a ins =>
        rw [merge_to_io_tuple, List.mem_cons] at hx
        rcases hx with h | h
        · exact Or.inl ⟨a, by simp, h⟩
        · rcases ih ins outs x h with ⟨v, hv, hxv⟩ | ⟨w, hw, hxw⟩
          · exact Or.inl ⟨v, by simp [hv], hxv⟩
          · exact Or.inr ⟨w, hw, hxw⟩
    | output =>
      cases outs with
      | nil => simp [merge_to_io_tuple] at hx
      | cons b outs =>
        rw [merge_to_io_tuple, List.mem_cons] at hx
        rcases hx with h | h
        · exact Or.inr ⟨b, by simp, h⟩
        · rcases ih ins outs x h with ⟨v, hv, hxv⟩ | ⟨w, hw, hxw⟩
          · exact Or.inl ⟨v, hv, hxv⟩
          · exact Or.inr ⟨w, by simp [hw], hxw⟩

/-- Claim C8: the outgoing response serializes the explicit output parameter
values first, in declared order, followed by the native callable's return
values in declared order (positions 0..NOut-1 of the serialized tuple are
the output values, positions NOut.. are the return values); and ReturnValue
slots are never part of the merged call-argument list: that list has exactly
one element per (input/output) arg-mode tag, each originating in the decoded
inputs or in the allocated output storage. -/
theorem response_serialization_order {α β γ : Type}
    (func : List (α ⊕ β) → List β × List γ) (arg_modes : List ArgMode)
    (in_vals : List α) (out_arg_refs : List β)
    (hin : in_vals.length = countInputs arg_modes)
    (hout : out_arg_refs.length = countOutputs arg_modes) :
    (∀ i, i < (func (merge_to_io_tuple in_vals out_arg_refs arg_modes)).1.length →
      (decoder_finished func arg_modes in_vals out_arg_refs).response[i]?
        = ((func (merge_to_io_tuple in_vals out_arg_refs arg_modes)).1[i]?).map Sum.inl)
    ∧ (∀ j,
      (decoder_finished func arg_modes in_vals out_arg_refs).response[
          (func (merge_to_io_tuple in_vals out_arg_refs arg_modes)).1.length + j]?
        = ((func (merge_to_io_tuple in_vals out_arg_refs arg_modes)).2[j]?).map Sum.inr)
    ∧ (decoder_finished func arg_modes in_vals out_arg_refs).response.length
        = (func (merge_to_io_tuple in_vals out_arg_refs arg_modes)).1.length
          + (func (merge_to_io_tuple in_vals out_arg_refs arg_modes)).2.length
    ∧ (decoder_finished func arg_modes in_vals out_arg_refs).in_and_out_refs.length
        = arg_modes.length
    ∧ (∀ x ∈ (decoder_finished func arg_modes in_vals out_arg_refs).in_and_out_refs,
        (∃ v ∈ in_vals, x = Sum.inl v) ∨ (∃ w ∈ out_arg_refs, x = Sum.inr w)) := by
  refine ⟨?_, ?_, ?_, ?_, ?_⟩
  · intro i hi
    show ((func (merge_to_io_tuple in_vals out_arg_refs arg_modes)).1.map Sum.inl
      ++ (func (merge_to_io_tuple in_vals out_arg_refs arg_modes)).2.map Sum.inr)[i]? = _
    rw [List.getElem?_append_left (by simpa using hi)]
    exact List.getElem?_map Sum.inl _ i
  · intro j
    show ((func (merge_to_io_tuple in_vals out_arg_refs arg_modes)).1.map Sum.inl
      ++ (func (merge_to_io_tuple in_vals out_arg_refs arg_modes)).2.map Sum.inr)[_]? = _
    rw [List.getElem?_append_right (by simp)]
    simp
  · show ((func (merge_to_io_tuple in_vals out_arg_refs arg_modes)).1.map Sum.inl
      ++ (func (merge_to_io_tuple in_vals out_arg_refs arg_modes)).2.map Sum.inr).length = _
    simp
  · exact (merge_spec arg_modes in_vals out_arg_refs hin hout).1
  · intro x hx
    exact merge_mem arg_modes in_vals out_arg_refs x hx

/-- Witness for claim C8 at one input, one output argument and one return
value, with tags [input, output]: the merged argument list has one element
per tag. -/
theorem response_serialization_order_witness :
    ([5] : List Nat).length = countInputs [ArgMode.input, ArgMode.output]
    ∧ ([0] : List Nat).length = countOutputs [ArgMode.input, ArgMode.output]
    ∧ (decoder_finished (fun _ => (([8], [9]) : List Nat × List Nat))
        [ArgMode.input, ArgMode.output] ([5] : List Nat) ([0] : List Nat)).in_and_out_refs.length
      = 2 :=
  ⟨by decide, by decide,
    (response_serialization_order (fun _ => (([8], [9]) : List Nat × List Nat))
      [ArgMode.input, ArgMode.output] [5] [0] (by decide) (by decide)).2.2.2.1⟩

/-- The metadata of the spec's example function: `move_to` with inputs
`x:uint32` and `y:uint32`. -/
def moveToMeta : FunctionMetadata :=
  ⟨r"move_to", [⟨r"x", r"uint32"⟩, ⟨r"y", r"uint32"⟩]⟩

/-- A second registered endpoint's metadata, distinct from `moveToMeta`. -/
def getPosMeta : FunctionMetadata :=
  ⟨r"get_pos", [⟨r"axis", r"uint32"⟩]⟩

/-- Claim C3: for every registered function the generated descriptor is
exactly the name string followed by the comma-separated per-input snippets
(only Input slots, in declared order, no added whitespace); in particular
`move_to` with inputs `x:uint32`, `y:uint32` yields exactly the literal
stated in the spec. -/
theorem json_descriptor_shape :
    (∀ md : FunctionMetadata,
      get_as_json md
        = "\x7b\"name\":\"" ++ md.function_name ++ "\",\"in\":[" ++
            String.intercalate commaSep (md.inputs.map get_input_json) ++ "]\x7d")
    ∧ get_as_json moveToMeta
      = "\x7b\"name\":\"move_to\",\"in\":[\x7b\"name\":\"x\",\"codec\":\"uint32\"\x7d,\x7b\"name\":\"y\",\"codec\":\"uint32\"\x7d]\x7d" :=
  ⟨fun _ => rfl, by decide⟩

/-- Claim C4 (code bug): `get_hash` is a stub (`// TODO: implement`)
returning the constant 0, so two distinct registered endpoints — here the
`move_to` and `get_pos` metadata — share the identity value 0, contradicting
the required per-endpoint uniqueness. -/
theorem get_hash_not_unique :
    moveToMeta ≠ getPosMeta
    ∧ get_hash moveToMeta = 0
    ∧ get_hash getPosMeta = 0
    ∧ get_hash moveToMeta = get_hash getPosMeta :=
  ⟨by decide, rfl, rfl, rfl⟩

end Fibre

namespace DBus

/-- Claim C6: decoding a boolean from its 4-byte unsigned representation
succeeds exactly on the values 0 and 1, yielding false and true; any other
value (e.g. 2) is rejected with a decode error and no boolean result. -/
theorem bool_decode_strict :
    boolPop 0 = some false
    ∧ boolPop 1 = some true
    ∧ ∀ n : Nat, 2 ≤ n → boolPop n = none := by
  refine ⟨rfl, rfl, fun n hn => ?_⟩
  unfold boolPop
  rw [if_neg (by omega), if_neg (by omega)]

/-- Witness for claim C6 at the spec's example value 2: decoding fails. -/
theorem bool_decode_strict_witness :
    2 ≤ 2 ∧ boolPop 2 = none :=
  ⟨by decide, bool_decode_strict.2.2 2 (by decide)⟩

/-- Claim C9: pushing a boolean marshals it as the 32-bit pattern 1 for true
and 0 for false — never any other pattern — so popping what push produced
always succeeds and yields the value again. -/
theorem bool_round_trip :
    ∀ v : Bool, (boolPush v = 0 ∨ boolPush v = 1) ∧ boolPop (boolPush v) = some v := by
  intro v
  cases v
  · exact ⟨Or.inl rfl, rfl⟩
  · exact ⟨Or.inr rfl, rfl⟩

/-- Unpacking returns 0 exactly when the message holds as many arguments as
expected and every argument matches its expected type id and pops
successfully; and the only other result is -1.  The side conditions say that
expected type ids and message-argument type ids are real D-Bus type ids,
i.e. never `DBUS_TYPE_INVALID` (0). -/
lemma unpack_iff :
    ∀ (es : List ExpectedArg) (msg : List MsgArg),
      (∀ e ∈ es, e.typeId ≠ 0) → (∀ a ∈ msg, a.typeId ≠ 0) →
      (unpack_message es msg = 0 ↔
        msg.length = es.length
        ∧ ∀ p ∈ es.zip msg, p.1.typeId = p.2.typeId ∧ p.1.popOk p.2.value = true)
      ∧ (unpack_message es msg = 0 ∨ unpack_message es msg = -1) := by
  intro es
  induction es with
  | nil =>
    intro msg hes hmsg
    cases msg with
    | nil =>
      refine ⟨?_, Or.inl rfl⟩
      simp [unpack_message, unpack_message_aux, argTypeId]
    | cons a tl =>
      have ha : a.typeId ≠ 0 := hmsg a (by simp)
      refine ⟨?_, Or.inr ?_⟩
      · simp [unpack_message, unpack_message_aux, argTypeId, ha]
      · simp [unpack_message, unpack_message_aux, argTypeId, ha]
  | cons e es ih =>
    intro msg hes hmsg
    have he : e.typeId ≠ 0 := hes e (by simp)
    cases msg with
    | nil =>
      refine ⟨?_, Or.inr ?_⟩
      · simp [unpack_message, unpack_message_aux, argTypeId, Ne.symm he]
      · simp [unpack_message, unpack_message_aux, argTypeId, Ne.symm he]
    | cons a tl =>
      have hes2 : ∀ x ∈ es, x.typeId ≠ 0 := fun x hx => hes x (by simp [hx])
      have hmsg2 : ∀ x ∈ tl, x.typeId ≠ 0 := fun x hx => hmsg x (by simp [hx])
      obtain ⟨ih1, ih2⟩ := ih tl hes2 hmsg2
      by_cases hty : a.typeId = e.typeId
      · by_cases hpop : e.popOk a.value = true
        · have hstep : unpack_message (e :: es) (a :: tl) = unpack_message es tl := by
            simp [unpack_message, unpack_message_aux, argTypeId, argValue, hty, hpop]
          refine ⟨?_, by rw [hstep]; exact ih2⟩
          rw [hstep, ih1]
          constructor
          · rintro ⟨h1, h2⟩
            refine ⟨by simpa using h1, ?_⟩
            intro p hp
            rw [List.zip_cons_cons, List.mem_cons] at hp
            rcases hp with hp | hp
            · subst hp
              exact ⟨hty.symm, hpop⟩
            · exact h2 p hp
          · rintro ⟨h1, h2⟩
            refine ⟨by simpa using h1, ?_⟩
            intro p hp
            refine h2 p ?_
            rw [List.zip_cons_cons, List.mem_cons]
            exact Or.inr hp
        · have hpop2 : e.popOk a.value = false := by simpa using hpop
          have hstep : unpack_message (e :: es) (a :: tl) = -1 := by
            simp [unpack_message, unpack_message_aux, argTypeId, argValue, hty, hpop2]
          refine ⟨?_, Or.inr hstep⟩
          rw [hstep]
          constructor
          · intro h
            exact absurd h (by decide)
          · rintro ⟨h1, h2⟩
            have hea := (h2 (e, a) (by rw [List.zip_cons_cons]; exact List.mem_cons_self _ _)).2
            exact absurd hea hpop
      · have hstep : unpack_message (e :: es) (a :: tl) = -1 := by
          simp [unpack_message, unpack_message_aux, argTypeId, hty]
        refine ⟨?_, Or.inr hstep⟩
        rw [hstep]
        constructor
        · intro h
          exact absurd h (by decide)
        · rintro ⟨h1, h2⟩
          have hea := (h2 (e, a) (by rw [List.zip_cons_cons]; exact List.mem_cons_self _ _)).1
          exact absurd hea.symm hty

/-- On the first argument whose type id mismatches, unpacking stops with -1
having attempted exactly the pops of the arguments before it: the
mismatching argument and everything after it are never popped. -/
lemma unpack_mismatch_stops :
    ∀ (es1 : List ExpectedArg) (m1 : List MsgArg) (e : ExpectedArg)
      (es2 : List ExpectedArg) (a : MsgArg) (m2 : List MsgArg),
      es1.length = m1.length →
      (∀ p ∈ es1.zip m1, p.1.typeId = p.2.typeId ∧ p.1.popOk p.2.value = true) →
      e.typeId ≠ a.typeId →
      unpack_message_aux (es1 ++ e :: es2) (m1 ++ a :: m2) = (-1, m1.length) := by
  intro es1
  induction es1 with
  | nil =>
    intro m1 e es2 a m2 hlen hpairs hne
    have hm1 : m1 = [] := List.eq_nil_of_length_eq_zero hlen.symm
    subst hm1
    have hne2 : a.typeId ≠ e.typeId := fun hh => hne hh.symm
    simp [unpack_message_aux, argTypeId, hne2]
  | cons x xs ih =>
    intro m1 e es2 a m2 hlen hpairs hne
    cases m1 with
    | nil => simp at hlen
    | cons y ys =>
      have hxy := hpairs (x, y) (by rw [List.zip_cons_cons]; exact List.mem_cons_self _ _)
      have hty : y.typeId = x.typeId := hxy.1.symm
      have hpop : x.popOk y.value = true := hxy.2
      have hrec := ih ys e es2 a m2 (by simpa using hlen)
        (fun p hp => hpairs p (by rw [List.zip_cons_cons, List.mem_cons]; exact Or.inr hp)) hne
      simp [unpack_message_aux, argTypeId, argValue, hty, hpop, hrec]

/-- Claim C10: unpacking a message into N typed values returns 0 exactly when
the message holds exactly N arguments whose type ids match the expected
types in order and whose values all pop successfully; any failure — type
mismatch, pop failure, or surplus arguments — returns -1; and on the first
type mismatch no further argument is attempted (the pop count stops at the
arguments before the mismatch). -/
theorem unpack_message_exact_arity :
    (∀ (es : List ExpectedArg) (msg : List MsgArg),
      (∀ e ∈ es, e.typeId ≠ 0) → (∀ a ∈ msg, a.typeId ≠ 0) →
      (unpack_message es msg = 0 ↔
        msg.length = es.length
        ∧ ∀ p ∈ es.zip msg, p.1.typeId = p.2.typeId ∧ p.1.popOk p.2.value = true)
      ∧ (unpack_message es msg = 0 ∨ unpack_message es msg = -1))
    ∧ (∀ (es1 : List ExpectedArg) (m1 : List MsgArg) (e : ExpectedArg)
        (es2 : List ExpectedArg) (a : MsgArg) (m2 : List MsgArg),
        es1.length = m1.length →
        (∀ p ∈ es1.zip m1, p.1.typeId = p.2.typeId ∧ p.1.popOk p.2.value = true) →
        e.typeId ≠ a.typeId →
        unpack_message_aux (es1 ++ e :: es2) (m1 ++ a :: m2) = (-1, m1.length)) :=
  ⟨unpack_iff, unpack_mismatch_stops⟩

/-- Witness for claim C10: a one-argument message of matching type id 117
whose pop succeeds unpacks to 0; and a message whose first argument has type
id 98 against an expected 116 stops at once with -1 and zero pops. -/
theorem unpack_message_exact_arity_witness :
    unpack_message [ExpectedArg.mk 117 (fun _ => true)] [MsgArg.mk 117 5] = 0
    ∧ unpack_message_aux ([] ++ ExpectedArg.mk 116 (fun _ => true) :: [])
        ([] ++ MsgArg.mk 98 7 :: []) = (-1, 0) := by
  constructor
  · refine (unpack_message_exact_arity.1 [ExpectedArg.mk 117 (fun _ => true)]
      [MsgArg.mk 117 5] ?_ ?_).1.mpr ⟨rfl, ?_⟩
    · intro e he
      rw [List.mem_singleton] at he
      subst he
      decide
    · intro a ha
      rw [List.mem_singleton] at ha
      subst ha
      decide
    · intro p hp
      rw [List.zip_cons_cons, List.zip_nil_left, List.mem_singleton] at hp
      subst hp
      exact ⟨rfl, rfl⟩
  · exact unpack_message_exact_arity.2 [] [] (ExpectedArg.mk 116 (fun _ => true))
      [] (MsgArg.mk 98 7) [] rfl (fun p hp => absurd hp (by simp)) (by decide)

end DBus
